import Mathlib

/-!
Verification of `test_log_collector` (src/src/lib.rs), a line-buffering
write sink.  The Rust struct `TestLogCollector { lines: Vec<String>,
current_line: String }` is embedded with strings as `List Char` and byte
buffers as `List Nat` (each entry a byte value).  `write` decodes its
buffer with `String::from_utf8_lossy`, which is modelled byte-for-byte by
`utf8DecodeLossy` below (Rust replaces each maximal invalid subpart with
one U+FFFD replacement character), and then iterates the decoded
characters, promoting the pending fragment to a completed line at each
newline character.
-/

/-- The replacement character U+FFFD emitted by lossy decoding. -/
def replacementChar : Char := Char.ofNat 0xFFFD

/-- Allowed range of the second byte of a 3-byte sequence, per the first
byte: `0xE0` forces `0xA0..=0xBF`, `0xED` forces `0x80..=0x9F` (excluding
surrogates), others allow `0x80..=0xBF`.  This mirrors the UTF-8 validation
table used by Rust's `core::str` validation. -/
def threeByteLo (b : Nat) : Nat := if b = 0xE0 then 0xA0 else 0x80

/-- Upper bound of the second byte of a 3-byte sequence. -/
def threeByteHi (b : Nat) : Nat := if b = 0xED then 0x9F else 0xBF

/-- Allowed lower bound of the second byte of a 4-byte sequence: `0xF0`
forces `0x90..=0xBF`, `0xF4` allows `0x80..=0x8F`, others `0x80..=0xBF`. -/
def fourByteLo (b : Nat) : Nat := if b = 0xF0 then 0x90 else 0x80

/-- Upper bound of the second byte of a 4-byte sequence. -/
def fourByteHi (b : Nat) : Nat := if b = 0xF4 then 0x8F else 0xBF

/-- Model of Rust's `String::from_utf8_lossy` on a byte list: decode UTF-8,
replacing each maximal invalid subpart by one U+FFFD (so a well-formed
prefix of a sequence that is cut short or followed by an out-of-range byte
becomes a single replacement character, and the offending byte is examined
afresh). -/
def utf8DecodeLossy : List Nat → List Char
  | [] => []
  | b :: bs =>
    if b < 0x80 then
      Char.ofNat b :: utf8DecodeLossy bs
    else if 0xC2 ≤ b ∧ b ≤ 0xDF then
      match bs with
      | [] => [replacementChar]
      | b1 :: bs1 =>
        if 0x80 ≤ b1 ∧ b1 ≤ 0xBF then
          Char.ofNat ((b % 0x20) * 0x40 + b1 % 0x40) :: utf8DecodeLossy bs1
        else
          replacementChar :: utf8DecodeLossy (b1 :: bs1)
    else if 0xE0 ≤ b ∧ b ≤ 0xEF then
      match bs with
      | [] => [replacementChar]
      | b1 :: bs1 =>
        if threeByteLo b ≤ b1 ∧ b1 ≤ threeByteHi b then
          match bs1 with
          | [] => [replacementChar]
          | b2 :: bs2 =>
            if 0x80 ≤ b2 ∧ b2 ≤ 0xBF then
              Char.ofNat ((b % 0x10) * 0x1000 + (b1 % 0x40) * 0x40 + b2 % 0x40)
                :: utf8DecodeLossy bs2
            else
              replacementChar :: utf8DecodeLossy (b2 :: bs2)
        else
          replacementChar :: utf8DecodeLossy (b1 :: bs1)
    else if 0xF0 ≤ b ∧ b ≤ 0xF4 then
      match bs with
      | [] => [replacementChar]
      | b1 :: bs1 =>
        if fourByteLo b ≤ b1 ∧ b1 ≤ fourByteHi b then
          match bs1 with
          | [] => [replacementChar]
          | b2 :: bs2 =>
            if 0x80 ≤ b2 ∧ b2 ≤ 0xBF then
              match bs2 with
              | [] => [replacementChar]
              | b3 :: bs3 =>
                if 0x80 ≤ b3 ∧ b3 ≤ 0xBF then
                  Char.ofNat ((b % 8) * 0x40000 + (b1 % 0x40) * 0x1000
                      + (b2 % 0x40) * 0x40 + b3 % 0x40)
                    :: utf8DecodeLossy bs3
                else
                  replacementChar :: utf8DecodeLossy (b3 :: bs3)
            else
              replacementChar :: utf8DecodeLossy (b2 :: bs2)
        else
          replacementChar :: utf8DecodeLossy (b1 :: bs1)
    else
      replacementChar :: utf8DecodeLossy bs

/-- UTF-8 encoding of one character (always a valid scalar value). -/
def utf8EncodeChar (ch : Char) : List Nat :=
  let n := ch.toNat
  if n < 0x80 then [n]
  else if n < 0x800 then [0xC0 + n / 0x40, 0x80 + n % 0x40]
  else if n < 0x10000 then
    [0xE0 + n / 0x1000, 0x80 + (n / 0x40) % 0x40, 0x80 + n % 0x40]
  else
    [0xF0 + n / 0x40000, 0x80 + (n / 0x1000) % 0x40,
     0x80 + (n / 0x40) % 0x40, 0x80 + n % 0x40]

/-- UTF-8 encoding of a text. -/
def utf8Encode : List Char → List Nat
  | [] => []
  | ch :: s => utf8EncodeChar ch ++ utf8Encode s

/-- A byte buffer is valid UTF-8 exactly when it is the encoding of some
text (this is how Rust characterises `str` contents). -/
def ValidUtf8 (buf : List Nat) : Prop := ∃ s : List Char, utf8Encode s = buf

/-- The collector state: `lines: Vec<String>` of completed lines and the
pending fragment `current_line: String`. -/
structure TestLogCollector where
  lines : List (List Char)
  current_line : List Char
deriving DecidableEq, Repr

/-- `TestLogCollector::new()`: empty lines, empty current line. -/
def TestLogCollector.new : TestLogCollector :=
  { lines := [], current_line := [] }

/-- `TestLogCollector::clear()`: clears both fields. -/
def TestLogCollector.clear (_c : TestLogCollector) : TestLogCollector :=
  { lines := [], current_line := [] }

/-- `TestLogCollector::count()`: number of completed lines. -/
def TestLogCollector.count (c : TestLogCollector) : Nat :=
  c.lines.length

/-- `TestLogCollector::clone_lines()`: a copy of the completed lines. -/
def TestLogCollector.clone_lines (c : TestLogCollector) : List (List Char) :=
  c.lines

/-- The body of the `for ch in s.chars()` loop in `write`: a newline pushes
a copy of `current_line` onto `lines` and clears it; any other character is
pushed onto `current_line`. -/
def writeChar (acc : TestLogCollector) (ch : Char) : TestLogCollector :=
  if ch = '\n' then
    { lines := acc.lines ++ [acc.current_line], current_line := [] }
  else
    { lines := acc.lines, current_line := acc.current_line ++ [ch] }

/-- `Write::write` for `TestLogCollector`: lossily decode the buffer, fold
the loop body over the decoded characters, return `Ok(buf.len())`. -/
def TestLogCollector.write (c : TestLogCollector) (buf : List Nat) :
    TestLogCollector × Except String Nat :=
  let s := utf8DecodeLossy buf
  (s.foldl writeChar c, Except.ok buf.length)

/-- `Write::flush` for `TestLogCollector`: a non-empty `current_line` is
pushed onto `lines` and cleared; always returns `Ok(())`. -/
def TestLogCollector.flush (c : TestLogCollector) :
    TestLogCollector × Except String Unit :=
  if c.current_line.isEmpty then
    (c, Except.ok ())
  else
    ({ lines := c.lines ++ [c.current_line], current_line := [] },
     Except.ok ())

/-- The operations a client can perform on the sink. -/
inductive Op where
  | write (buf : List Nat)
  | flush
  | clear
deriving DecidableEq

/-- Apply one operation to a collector state (dropping the returned
result values, which carry no state). -/
def Op.apply (c : TestLogCollector) : Op → TestLogCollector
  | .write buf => (c.write buf).1
  | .flush => (c.flush).1
  | .clear => c.clear

/-- The state reached from a fresh collector by a sequence of operations. -/
def run (ops : List Op) : TestLogCollector :=
  ops.foldl Op.apply TestLogCollector.new

/-- Restatement of the spec's processing contract as a recursion over the
decoded characters: iterate the characters in order; a character equal to
the line-terminator appends a copy of the current pending fragment to the
completed-lines sequence and resets the pending fragment to empty; every
other character is appended to the pending fragment. -/
def specProcessChars (c : TestLogCollector) : List Char → TestLogCollector
  | [] => c
  | ch :: s =>
    if ch = '\n' then
      specProcessChars
        { lines := c.lines ++ [c.current_line], current_line := [] } s
    else
      specProcessChars
        { lines := c.lines, current_line := c.current_line ++ [ch] } s

/-- Running tally of line terminators seen by `write` since the last
clear: a write adds the newline count of its decoded buffer, a clear
resets the tally, a flush processes no characters. -/
def newlineStep (n : Nat) : Op → Nat
  | .write buf => n + (utf8DecodeLossy buf).count '\n'
  | .flush => n
  | .clear => 0

/-- The number of line-terminator characters processed by write calls
since the last clear (or since creation) in an operation sequence. -/
def newlinesSinceClear (ops : List Op) : Nat :=
  ops.foldl newlineStep 0

theorem utf8DecodeLossy_ascii (b : Nat) (t : List Nat) (h : b < 0x80) :
    utf8DecodeLossy (b :: t) = Char.ofNat b :: utf8DecodeLossy t := by
  rw [utf8DecodeLossy.eq_def]
  simp only [h, if_true, if_false, reduceIte]

theorem utf8DecodeLossy_two (b b1 : Nat) (t : List Nat)
    (h : 0xC2 ≤ b ∧ b ≤ 0xDF) (h1 : 0x80 ≤ b1 ∧ b1 ≤ 0xBF) :
    utf8DecodeLossy (b :: b1 :: t)
      = Char.ofNat ((b % 0x20) * 0x40 + b1 % 0x40) :: utf8DecodeLossy t := by
  have hb : ¬ b < 0x80 := by omega
  rw [utf8DecodeLossy.eq_def]
  simp only [hb, h.1, h.2, h1.1, h1.2, and_self, and_true, true_and,
    if_true, if_false, reduceIte]

theorem utf8DecodeLossy_three (b b1 b2 : Nat) (t : List Nat)
    (h : 0xE0 ≤ b ∧ b ≤ 0xEF) (h1 : threeByteLo b ≤ b1 ∧ b1 ≤ threeByteHi b)
    (h2 : 0x80 ≤ b2 ∧ b2 ≤ 0xBF) :
    utf8DecodeLossy (b :: b1 :: b2 :: t)
      = Char.ofNat ((b % 0x10) * 0x1000 + (b1 % 0x40) * 0x40 + b2 % 0x40)
          :: utf8DecodeLossy t := by
  have hb : ¬ b < 0x80 := by omega
  have hc : ¬ (0xC2 ≤ b ∧ b ≤ 0xDF) := by omega
  rw [utf8DecodeLossy.eq_def]
  simp only [hb, hc, h.1, h.2, h1.1, h1.2, h2.1, h2.2, and_self, and_true,
    true_and, if_true, if_false, reduceIte]

theorem utf8DecodeLossy_four (b b1 b2 b3 : Nat) (t : List Nat)
    (h : 0xF0 ≤ b ∧ b ≤ 0xF4) (h1 : fourByteLo b ≤ b1 ∧ b1 ≤ fourByteHi b)
    (h2 : 0x80 ≤ b2 ∧ b2 ≤ 0xBF) (h3 : 0x80 ≤ b3 ∧ b3 ≤ 0xBF) :
    utf8DecodeLossy (b :: b1 :: b2 :: b3 :: t)
      = Char.ofNat ((b % 8) * 0x40000 + (b1 % 0x40) * 0x1000
          + (b2 % 0x40) * 0x40 + b3 % 0x40) :: utf8DecodeLossy t := by
  have hb : ¬ b < 0x80 := by omega
  have hc : ¬ (0xC2 ≤ b ∧ b ≤ 0xDF) := by omega
  have hd : ¬ (0xE0 ≤ b ∧ b ≤ 0xEF) := by omega
  rw [utf8DecodeLossy.eq_def]
  simp only [hb, hc, hd, h.1, h.2, h1.1, h1.2, h2.1, h2.2, h3.1, h3.2,
    and_self, and_true, true_and, if_true, if_false, reduceIte]

theorem utf8DecodeLossy_encodeChar (ch : Char) (t : List Nat) :
    utf8DecodeLossy (utf8EncodeChar ch ++ t) = ch :: utf8DecodeLossy t := by
  have hv : Nat.isValidChar ch.toNat := ch.valid
  have hofn : Char.ofNat ch.toNat = ch := Char.ofNat_toNat ch
  unfold Nat.isValidChar at hv
  set n := ch.toNat with hn
  by_cases c1 : n < 0x80
  · have he : utf8EncodeChar ch = [n] := by
      unfold utf8EncodeChar; rw [← hn, if_pos c1]
    rw [he, List.singleton_append, utf8DecodeLossy_ascii n t c1, hofn]
  · by_cases c2 : n < 0x800
    · have he : utf8EncodeChar ch = [0xC0 + n / 0x40, 0x80 + n % 0x40] := by
        unfold utf8EncodeChar; rw [← hn, if_neg c1, if_pos c2]
      rw [he, List.cons_append, List.singleton_append,
        utf8DecodeLossy_two _ _ _ (by omega) (by omega)]
      rw [show (0xC0 + n / 0x40) % 0x20 * 0x40 + (0x80 + n % 0x40) % 0x40 = n
        by omega]
      rw [hofn]
    · by_cases c3 : n < 0x10000
      · have he : utf8EncodeChar ch
            = [0xE0 + n / 0x1000, 0x80 + (n / 0x40) % 0x40, 0x80 + n % 0x40] := by
          unfold utf8EncodeChar; rw [← hn, if_neg c1, if_neg c2, if_pos c3]
        have h1 : threeByteLo (0xE0 + n / 0x1000) ≤ 0x80 + (n / 0x40) % 0x40
            ∧ 0x80 + (n / 0x40) % 0x40 ≤ threeByteHi (0xE0 + n / 0x1000) := by
          unfold threeByteLo threeByteHi
          constructor
          · split
            · next heq => omega
            · omega
          · split
            · next heq => omega
            · omega
        rw [he, List.cons_append, List.cons_append, List.singleton_append,
          utf8DecodeLossy_three _ _ _ _ (by omega) h1 (by omega)]
        rw [show (0xE0 + n / 0x1000) % 0x10 * 0x1000
            + (0x80 + (n / 0x40) % 0x40) % 0x40 * 0x40 + (0x80 + n % 0x40) % 0x40
            = n by omega]
        rw [hofn]
      · have c4 : n < 0x110000 := by omega
        have he : utf8EncodeChar ch
            = [0xF0 + n / 0x40000, 0x80 + (n / 0x1000) % 0x40,
               0x80 + (n / 0x40) % 0x40, 0x80 + n % 0x40] := by
          unfold utf8EncodeChar; rw [← hn, if_neg c1, if_neg c2, if_neg c3]
        have h1 : fourByteLo (0xF0 + n / 0x40000) ≤ 0x80 + (n / 0x1000) % 0x40
            ∧ 0x80 + (n / 0x1000) % 0x40 ≤ fourByteHi (0xF0 + n / 0x40000) := by
          unfold fourByteLo fourByteHi
          constructor
          · split
            · next heq => omega
            · omega
          · split
            · next heq => omega
            · omega
        rw [he, List.cons_append, List.cons_append, List.cons_append,
          List.singleton_append,
          utf8DecodeLossy_four _ _ _ _ _ (by omega) h1 (by omega) (by omega)]
        rw [show (0xF0 + n / 0x40000) % 8 * 0x40000
            + (0x80 + (n / 0x1000) % 0x40) % 0x40 * 0x1000
            + (0x80 + (n / 0x40) % 0x40) % 0x40 * 0x40 + (0x80 + n % 0x40) % 0x40
            = n by omega]
        rw [hofn]

theorem utf8Encode_append (s1 s2 : List Char) :
    utf8Encode (s1 ++ s2) = utf8Encode s1 ++ utf8Encode s2 := by
  induction s1 with
  | nil => simp [utf8Encode]
  | cons ch s ih => simp [utf8Encode, ih]

theorem utf8DecodeLossy_utf8Encode_append (s : List Char) (t : List Nat) :
    utf8DecodeLossy (utf8Encode s ++ t) = s ++ utf8DecodeLossy t := by
  induction s with
  | nil => simp [utf8Encode]
  | cons ch s ih =>
    rw [utf8Encode, List.append_assoc, utf8DecodeLossy_encodeChar, ih,
      List.cons_append]

theorem utf8DecodeLossy_utf8Encode (s : List Char) :
    utf8DecodeLossy (utf8Encode s) = s := by
  simpa [utf8DecodeLossy] using utf8DecodeLossy_utf8Encode_append s []

theorem foldl_writeChar_no_newline (c : TestLogCollector) (s : List Char)
    (h : '\n' ∉ s) :
    List.foldl writeChar c s
      = { lines := c.lines, current_line := c.current_line ++ s } := by
  induction s generalizing c with
  | nil => simp
  | cons ch s ih =>
    have hch : ch ≠ '\n' := fun e => h (by simp [e])
    rw [List.foldl_cons, writeChar, if_neg hch,
      ih _ fun hm => h (List.mem_cons_of_mem _ hm)]
    simp

theorem foldl_writeChar_length (c : TestLogCollector) (s : List Char) :
    (List.foldl writeChar c s).lines.length
      = c.lines.length + s.count '\n' := by
  induction s generalizing c with
  | nil => simp
  | cons ch s ih =>
    rw [List.foldl_cons, ih]
    by_cases hch : ch = '\n' <;>
      simp [writeChar, hch, List.count_cons]
    omega

theorem foldl_writeChar_pending (c : TestLogCollector) (s : List Char)
    (h : '\n' ∉ c.current_line) :
    '\n' ∉ (List.foldl writeChar c s).current_line := by
  induction s generalizing c with
  | nil => simpa using h
  | cons ch s ih =>
    rw [List.foldl_cons]
    apply ih
    by_cases hch : ch = '\n'
    · simp [writeChar, hch]
    · intro hm
      simp only [writeChar, if_neg hch] at hm
      rcases List.mem_append.1 hm with hm | hm
      · exact h hm
      · simp at hm
        exact hch hm.symm

theorem foldl_writeChar_lines_mono (c : TestLogCollector) (s : List Char) :
    ∃ t, (List.foldl writeChar c s).lines = c.lines ++ t := by
  induction s generalizing c with
  | nil => exact ⟨[], by simp⟩
  | cons ch s ih =>
    rw [List.foldl_cons]
    rcases ih (writeChar c ch) with ⟨t, ht⟩
    by_cases hch : ch = '\n'
    · exact ⟨c.current_line :: t, by rw [ht]; simp [writeChar, hch]⟩
    · exact ⟨t, by rw [ht]; simp [writeChar, hch]⟩

theorem foldl_writeChar_eq_specProcessChars (c : TestLogCollector)
    (s : List Char) : List.foldl writeChar c s = specProcessChars c s := by
  induction s generalizing c with
  | nil => rfl
  | cons ch s ih =>
    by_cases hch : ch = '\n' <;>
      simp [List.foldl_cons, specProcessChars, writeChar, hch, ih]

example : utf8DecodeLossy [0x48, 0x69] = ['H', 'i'] := by decide
example : utf8DecodeLossy [0xC3, 0xA9] = ['é'] := by decide
example : utf8DecodeLossy [0xC3] = [replacementChar] := by decide
example : utf8DecodeLossy [0xA9] = [replacementChar] := by decide
example : utf8DecodeLossy [0xE2, 0x82, 0xAC] = ['€'] := by decide
example : utf8DecodeLossy [0xFF, 0x41] = [replacementChar, 'A'] := by decide
example : utf8Encode ['é'] = [0xC3, 0xA9] := by decide
example :
    (TestLogCollector.new.write [0x61, 0x0A, 0x62]).1
      = { lines := [['a']], current_line := ['b'] } := by decide
example : (run [Op.write [0x61], Op.flush]).count = 1 := by decide

/-- C1: `write` lossily decodes its byte buffer (an invalid byte sequence
becomes the replacement character, as the concrete conjunct shows) and
processes the decoded characters in order: each newline character appends a
copy of the current pending fragment to the completed lines and resets the
fragment to empty, and every other character is appended to the fragment. -/
theorem C1_write_follows_processing_contract (c : TestLogCollector)
    (buf : List Nat) :
    (c.write buf).1 = specProcessChars c (utf8DecodeLossy buf)
    ∧ utf8DecodeLossy [0xFF, 0x41] = [replacementChar, 'A'] :=
  ⟨foldl_writeChar_eq_specProcessChars c (utf8DecodeLossy buf), by decide⟩

/-- C2: `flush` on a non-empty pending fragment appends exactly that
fragment to the completed lines (count goes up by exactly one) and resets
the fragment to empty; on an empty fragment it leaves the state unchanged;
it always returns success. -/
theorem C2_flush_contract (c : TestLogCollector) :
    (c.flush).1 = (if c.current_line = [] then c
      else { lines := c.lines ++ [c.current_line], current_line := [] })
    ∧ (c.flush).1.count
        = (if c.current_line = [] then c.count else c.count + 1)
    ∧ (c.flush).2 = Except.ok () := by
  by_cases h : c.current_line = [] <;>
    simp [TestLogCollector.flush, TestLogCollector.count, h]

/-- C3: in every state reachable from a fresh collector by any sequence of
write, flush and clear operations, the pending fragment contains no
newline character. -/
theorem C3_pending_has_no_terminator (ops : List Op) :
    '\n' ∉ (run ops).current_line := by
  suffices h : ∀ c : TestLogCollector, '\n' ∉ c.current_line →
      '\n' ∉ (ops.foldl Op.apply c).current_line by
    exact h TestLogCollector.new (by simp [TestLogCollector.new])
  induction ops with
  | nil => exact fun c hc => hc
  | cons op ops ih =>
    intro c hc
    rw [List.foldl_cons]
    apply ih
    cases op with
    | write buf => exact foldl_writeChar_pending c _ hc
    | flush =>
      show '\n' ∉ (c.flush).1.current_line
      unfold TestLogCollector.flush
      by_cases h : c.current_line.isEmpty <;> simp [h, hc]
    | clear => simp [Op.apply, TestLogCollector.clear]

/-- C4 fails as stated: flushing a non-empty pending fragment raises the
count with no newline having been processed by any write. -/
theorem C4_counterexample :
    ¬ ((run [Op.write [0x61], Op.flush]).count
        = newlinesSinceClear [Op.write [0x61], Op.flush]) := by decide

/-- C4 amended: in every state reachable from a fresh collector by write
and clear operations only (no flush), the count of completed lines equals
the number of newline characters processed by write calls since the last
clear (or since creation), however the input was distributed across write
calls. -/
theorem C4_count_eq_newlines_without_flush (ops : List Op)
    (h : Op.flush ∉ ops) :
    (run ops).count = newlinesSinceClear ops := by
  induction ops using List.reverseRecOn with
  | nil => rfl
  | append_singleton l op ih =>
    have hl : Op.flush ∉ l := fun hm => h (List.mem_append.2 (Or.inl hm))
    have hrun : run (l ++ [op]) = Op.apply (run l) op := by
      rw [run, List.foldl_append]; rfl
    have hnew : newlinesSinceClear (l ++ [op])
        = newlineStep (newlinesSinceClear l) op := by
      rw [newlinesSinceClear, List.foldl_append]; rfl
    rw [hrun, hnew]
    cases op with
    | write buf =>
      show (List.foldl writeChar (run l) (utf8DecodeLossy buf)).lines.length
        = newlineStep (newlinesSinceClear l) (Op.write buf)
      rw [foldl_writeChar_length]
      have hc := ih hl
      unfold TestLogCollector.count at hc
      rw [hc]
      rfl
    | flush => exact (h (List.mem_append.2 (Or.inr (by simp)))).elim
    | clear => rfl

/-- C4 witness: a concrete flush-free run where the count matches the
newline tally of the writes. -/
theorem C4_count_eq_newlines_witness :
    Op.flush ∉ [Op.write [0x61, 0x0A], Op.clear, Op.write [0x0A, 0x62, 0x0A]]
    ∧ (run [Op.write [0x61, 0x0A], Op.clear,
        Op.write [0x0A, 0x62, 0x0A]]).count
      = newlinesSinceClear
          [Op.write [0x61, 0x0A], Op.clear, Op.write [0x0A, 0x62, 0x0A]] :=
  ⟨by decide, C4_count_eq_newlines_without_flush _ (by decide)⟩

/-- C5: `write` returns success carrying the full length of the input
buffer, for every buffer (empty, terminator-free, all terminators, or
invalid text alike); it never returns an error. -/
theorem C5_write_consumes_all (c : TestLogCollector) (buf : List Nat) :
    (c.write buf).2 = Except.ok buf.length := rfl

/-- C6: starting from an empty pending fragment, writing terminator-free
text `s1` and then `s2` followed by a newline appends exactly one completed
line, the concatenation of `s1` and `s2`; the split across the two write
calls is invisible. -/
theorem C6_split_is_invisible (c : TestLogCollector) (s1 s2 : List Char)
    (h0 : c.current_line = []) (h1 : '\n' ∉ s1) (h2 : '\n' ∉ s2) :
    ((c.write (utf8Encode s1)).1.write (utf8Encode (s2 ++ ['\n']))).1
      = { lines := c.lines ++ [s1 ++ s2], current_line := [] } := by
  show List.foldl writeChar
      (List.foldl writeChar c (utf8DecodeLossy (utf8Encode s1)))
      (utf8DecodeLossy (utf8Encode (s2 ++ ['\n']))) = _
  rw [utf8DecodeLossy_utf8Encode s1, utf8DecodeLossy_utf8Encode (s2 ++ ['\n']),
    foldl_writeChar_no_newline c s1 h1, h0, List.nil_append,
    List.foldl_append, foldl_writeChar_no_newline _ s2 h2]
  simp [writeChar]

/-- C6 witness: concrete split write of one line from a fresh collector. -/
theorem C6_split_is_invisible_witness :
    TestLogCollector.new.current_line = [] ∧ '\n' ∉ ['a'] ∧ '\n' ∉ ['b']
    ∧ ((TestLogCollector.new.write (utf8Encode ['a'])).1.write
        (utf8Encode (['b'] ++ ['\n']))).1
      = { lines := TestLogCollector.new.lines ++ [['a'] ++ ['b']],
          current_line := [] } :=
  ⟨rfl, by decide, by decide,
   C6_split_is_invisible TestLogCollector.new ['a'] ['b'] rfl
     (by decide) (by decide)⟩

/-- C7: only the newline character acts as a terminator; a carriage return
immediately preceding it is kept as the last character of the completed
line, with no CRLF normalization. -/
theorem C7_carriage_return_retained (c : TestLogCollector) (s : List Char)
    (h : '\n' ∉ s) :
    (c.write (utf8Encode (s ++ ['\r', '\n']))).1
      = { lines := c.lines ++ [c.current_line ++ (s ++ ['\r'])],
          current_line := [] } := by
  have hcr : '\n' ∉ s ++ ['\r'] := by
    intro hm
    rcases List.mem_append.1 hm with hm | hm
    · exact h hm
    · simp at hm
  show List.foldl writeChar c
      (utf8DecodeLossy (utf8Encode (s ++ ['\r', '\n']))) = _
  rw [utf8DecodeLossy_utf8Encode,
    show s ++ ['\r', '\n'] = (s ++ ['\r']) ++ ['\n'] by simp,
    List.foldl_append, foldl_writeChar_no_newline c (s ++ ['\r']) hcr]
  simp [writeChar]

/-- C7 witness: writing the bytes of the text a CR LF yields exactly the
completed line a CR. -/
theorem C7_carriage_return_retained_witness :
    '\n' ∉ ['a']
    ∧ (TestLogCollector.new.write (utf8Encode (['a'] ++ ['\r', '\n']))).1
      = { lines := TestLogCollector.new.lines
            ++ [TestLogCollector.new.current_line ++ (['a'] ++ ['\r'])],
          current_line := [] } :=
  ⟨by decide,
   C7_carriage_return_retained TestLogCollector.new ['a'] (by decide)⟩

/-- C8: `clear` restores the initial empty state regardless of prior
state: the completed lines become empty (count is zero and the snapshot is
the empty sequence) and the pending fragment becomes empty. -/
theorem C8_clear_resets (c : TestLogCollector) :
    c.clear = TestLogCollector.new ∧ (c.clear).count = 0
    ∧ (c.clear).clone_lines = [] ∧ (c.clear).current_line = [] :=
  ⟨rfl, rfl, rfl, rfl⟩

/-- C9: on buffers that are each individually valid UTF-8, two consecutive
writes leave the same state as one write of the concatenation; on
arbitrary buffers this fails, because each write decodes its buffer
independently and a multi-byte character split across the calls becomes
replacement characters. -/
theorem C9_write_append_valid_utf8 :
    (∀ (c : TestLogCollector) (a b : List Nat), ValidUtf8 a → ValidUtf8 b →
      ((c.write a).1.write b).1 = (c.write (a ++ b)).1)
    ∧ ((TestLogCollector.new.write [0xC3]).1.write [0xA9]).1
        ≠ (TestLogCollector.new.write [0xC3, 0xA9]).1 := by
  constructor
  · rintro c a b ⟨s1, rfl⟩ ⟨s2, rfl⟩
    show List.foldl writeChar
        (List.foldl writeChar c (utf8DecodeLossy (utf8Encode s1)))
        (utf8DecodeLossy (utf8Encode s2))
      = List.foldl writeChar c
          (utf8DecodeLossy (utf8Encode s1 ++ utf8Encode s2))
    rw [utf8DecodeLossy_utf8Encode_append s1 (utf8Encode s2),
      utf8DecodeLossy_utf8Encode s1, utf8DecodeLossy_utf8Encode s2,
      List.foldl_append]
  · decide

/-- C10: the completed-lines sequence is append-only under a single write
or flush: the sequence before the operation is a prefix of the sequence
after it, so no existing entry is modified. -/
theorem C10_lines_append_only (c : TestLogCollector) (buf : List Nat) :
    (∃ t, (c.write buf).1.lines = c.lines ++ t)
    ∧ (∃ t, (c.flush).1.lines = c.lines ++ t) := by
  refine ⟨foldl_writeChar_lines_mono c (utf8DecodeLossy buf), ?_⟩
  unfold TestLogCollector.flush
  by_cases h : c.current_line.isEmpty
  · exact ⟨[], by simp [h]⟩
  · exact ⟨[c.current_line], by simp [h]⟩
